import Mathlib

set_option maxHeartbeats 1600000
set_option maxRecDepth 4000

/-
Shallow embedding of the Thompson-Sampling search engine in
src/thompson_sampling.py (class ThompsonSampler).

Conventions of the embedding:
- machine floats are embedded as exact rationals (and as reals where the
  source computes exponentials / square roots);
- a possibly-NaN array entry is `Option` (`none` = NaN); `np.isfinite` on an
  evaluator result corresponds to `Option.isSome`;
- Python exceptions become `Except String` with the CPython/numpy message;
- the external collaborators that are not part of this repository's src
  (DisallowTracker, the Reagent belief object, the RDKit reaction, the
  evaluator, and the random number sources) enter through an explicit
  environment of oracles, so that control flow of the engine itself is a
  faithful, executable translation of the source.
-/

/-- One cell of a selection vector: the `DisallowTracker.Empty` sentinel, the
`DisallowTracker.To_Fill` sentinel, or a concrete reagent index. -/
inductive Cell where
  | Empty : Cell
  | To_Fill : Cell
  | Fill : ℕ → Cell
  deriving DecidableEq, Repr

/-- Modelled from the spec: the per-element belief object ("reagent", 4.1 /
reagent.py, which is not under src/). It carries an identity, the accumulated
finite scores, and posterior parameters used for sampling during search. -/
structure Reagent where
  reagent_name : String
  scores : List ℚ
  current_mean : ℚ
  current_std : ℚ
  deriving DecidableEq, Repr

/-- Modelled from the spec: `addScore(value)` appends a finite observation
(spec 4.1).  The running mean/variance recurrence is explicitly left open by
the spec (design note) and no claim below depends on it, so the posterior
fields are not recomputed here. -/
def Reagent.add_score (r : Reagent) (v : ℚ) : Reagent :=
  { r with scores := r.scores ++ [v] }

/-- Modelled from the spec: `initializeFromPrior` (reagent.init_given_prior,
reagent.py not under src/).  It fails (NoObservationsError / ValueError) iff
the element accumulated zero finite scores during warm-up; the exact Bayesian
normal-normal combination is left unspecified by the spec (design note) and is
not load-bearing for any claim, so a successful initialisation keeps the
record. -/
def Reagent.init_given_prior (r : Reagent) (_prior_mean _prior_var : ℚ) :
    Option Reagent :=
  if r.scores.isEmpty then none else some r

def dfltReagent : Reagent := ⟨"", [], 0, 0⟩

instance : Inhabited Reagent := ⟨dfltReagent⟩

/-! ### Small list helpers (with their access lemmas) -/

/-- Apply `f` to the element at position `n`, as the source's in-place
mutation of one reagent in one component list. -/
def modifyAt (f : α → α) : ℕ → List α → List α
  | _, [] => []
  | 0, x :: xs => f x :: xs
  | n + 1, x :: xs => x :: modifyAt f n xs

@[simp] theorem length_modifyAt (f : α → α) : ∀ (n : ℕ) (l : List α),
    (modifyAt f n l).length = l.length := by
  intro n l
  induction l generalizing n with
  | nil => simp [modifyAt]
  | cons x xs ih =>
    cases n with
    | zero => simp [modifyAt]
    | succ m => simp [modifyAt, ih]

theorem getD_modifyAt_self (f : α → α) (d : α) :
    ∀ (n : ℕ) (l : List α), n < l.length →
      (modifyAt f n l).getD n d = f (l.getD n d) := by
  intro n l
  induction l generalizing n with
  | nil => intro h; simp at h
  | cons x xs ih =>
    cases n with
    | zero => intro _; simp [modifyAt]
    | succ m =>
      intro h
      simp only [modifyAt, List.getD_cons_succ]
      exact ih m (by simpa using h)

theorem getD_modifyAt_other (f : α → α) (d : α) :
    ∀ (n m : ℕ) (l : List α), n ≠ m →
      (modifyAt f n l).getD m d = l.getD m d := by
  intro n m l
  induction l generalizing n m with
  | nil => intro _; simp [modifyAt]
  | cons x xs ih =>
    intro hnm
    cases n with
    | zero =>
      cases m with
      | zero => exact absurd rfl hnm
      | succ k => simp [modifyAt]
    | succ n' =>
      cases m with
      | zero => simp [modifyAt]
      | succ k =>
        simp only [modifyAt, List.getD_cons_succ]
        exact ih n' k (by omega)

theorem getD_set_self (v d : α) :
    ∀ (n : ℕ) (l : List α), n < l.length → (l.set n v).getD n d = v := by
  intro n l
  induction l generalizing n with
  | nil => intro h; simp at h
  | cons x xs ih =>
    cases n with
    | zero => intro _; simp
    | succ m =>
      intro h
      simp only [List.set_cons_succ, List.getD_cons_succ]
      exact ih m (by simpa using h)

theorem getD_set_other (v d : α) :
    ∀ (n m : ℕ) (l : List α), n ≠ m → (l.set n v).getD m d = l.getD m d := by
  intro n m l
  induction l generalizing n m with
  | nil => intro _; simp
  | cons x xs ih =>
    intro hnm
    cases n with
    | zero =>
      cases m with
      | zero => exact absurd rfl hnm
      | succ k => simp
    | succ n' =>
      cases m with
      | zero => simp
      | succ k =>
        simp only [List.set_cons_succ, List.getD_cons_succ]
        exact ih n' k (by omega)

theorem getD_some_mem {l : List (Option α)} {k : ℕ} {v : α}
    (h : l.getD k none = some v) : some v ∈ l := by
  induction l generalizing k with
  | nil => simp at h
  | cons x xs ih =>
    cases k with
    | zero => simp_all
    | succ m =>
      simp only [List.getD_cons_succ] at h
      exact List.mem_cons_of_mem _ (ih h)

theorem getD_map_option (f : α → β) :
    ∀ (l : List (Option α)) (k : ℕ),
      (l.map (Option.map f)).getD k none = Option.map f (l.getD k none) := by
  intro l
  induction l with
  | nil => intro k; simp
  | cons x xs ih =>
    intro k
    cases k with
    | zero => simp
    | succ m => simpa using ih m

theorem getD_map_zero (g : Option α → ℚ) (hg : g none = 0) :
    ∀ (l : List (Option α)) (k : ℕ), (l.map g).getD k 0 = g (l.getD k none) := by
  intro l
  induction l with
  | nil => intro k; simp [hg]
  | cons x xs ih =>
    intro k
    cases k with
    | zero => simp
    | succ m => simpa using ih m

/-! ### Masking a sampled-value row with a disallow set

In the source, disallowed indices of the sampled row are overwritten with
`np.nan` (`choice_row[np.array(list(disallow_mask))] = np.nan`,
`selection_scores[list(disallow_mask)] = np.nan`); the resulting array is
embedded as a list of `Option` values, `none` at the masked positions. -/

def applyMaskGo (mask : Finset ℕ) : List α → ℕ → List (Option α)
  | [], _ => []
  | x :: xs, i => (if i ∈ mask then none else some x) :: applyMaskGo mask xs (i + 1)

def applyMask (xs : List α) (mask : Finset ℕ) : List (Option α) :=
  applyMaskGo mask xs 0

theorem applyMaskGo_getD (mask : Finset ℕ) :
    ∀ (xs : List α) (i k : ℕ),
      (applyMaskGo mask xs i).getD k none =
        if (i + k) ∈ mask then none else xs[k]? := by
  intro xs
  induction xs with
  | nil => intro i k; simp [applyMaskGo]
  | cons x xs ih =>
    intro i k
    cases k with
    | zero => simp [applyMaskGo]
    | succ m =>
      simp only [applyMaskGo, List.getD_cons_succ, List.getElem?_cons_succ]
      rw [ih (i + 1) m]
      have : i + 1 + m = i + (m + 1) := by omega
      rw [this]

theorem applyMask_getD (xs : List α) (mask : Finset ℕ) (k : ℕ) :
    (applyMask xs mask).getD k none = if k ∈ mask then none else xs[k]? := by
  have := applyMaskGo_getD mask xs 0 k
  simpa [applyMask] using this

@[simp] theorem length_applyMaskGo (mask : Finset ℕ) :
    ∀ (xs : List α) (i : ℕ), (applyMaskGo mask xs i).length = xs.length := by
  intro xs
  induction xs with
  | nil => intro i; simp [applyMaskGo]
  | cons x xs ih => intro i; simp [applyMaskGo, ih]

@[simp] theorem length_applyMask (xs : List α) (mask : Finset ℕ) :
    (applyMask xs mask).length = xs.length := by
  simp [applyMask]

/-! ### np.nanargmax / np.nanargmin

`np.nanargmax` returns the index of the greatest non-NaN entry (first
occurrence on ties) and raises `ValueError: All-NaN slice encountered` when
every entry is NaN; `np.nanargmin` dually.  Both are embedded through one
accumulator recursion parameterised by the direction. -/

/-- In max mode (`b = true`) challenger `y` beats incumbent `x` iff `x < y`;
in min mode iff `y < x`.  A challenger that merely ties never replaces the
incumbent, giving numpy's first-occurrence tie-breaking. -/
def beats {α : Type} [LinearOrder α] (b : Bool) (x y : α) : Prop :=
  if b then x < y else y < x

instance {α : Type} [LinearOrder α] (b : Bool) (x y : α) :
    Decidable (beats b x y) := by
  unfold beats
  infer_instance

def argBestGo {α : Type} [LinearOrder α] (b : Bool) :
    List (Option α) → ℕ → Option (ℕ × α) → Option (ℕ × α)
  | [], _, best => best
  | none :: rest, i, best => argBestGo b rest (i + 1) best
  | some v :: rest, i, best =>
    argBestGo b rest (i + 1)
      (match best with
       | none => some (i, v)
       | some (bi, bv) => if beats b bv v then some (i, v) else some (bi, bv))

def nanargmax {α : Type} [LinearOrder α] (l : List (Option α)) : Option ℕ :=
  (argBestGo true l 0 none).map Prod.fst

def nanargmin {α : Type} [LinearOrder α] (l : List (Option α)) : Option ℕ :=
  (argBestGo false l 0 none).map Prod.fst

theorem beats_irrefl {α : Type} [LinearOrder α] (b : Bool) (x : α) :
    ¬ beats b x x := by
  cases b <;> simp [beats]

/-- If the incumbent `m` is not beaten by `y`, and `r` is not beaten by `m`,
then `r` is not beaten by `y` (transitivity of domination). -/
theorem beats_trans_not {α : Type} [LinearOrder α] {b : Bool} {r m y : α}
    (h1 : ¬ beats b r m) (h2 : ¬ beats b m y) : ¬ beats b r y := by
  cases b <;> simp only [beats, if_true, if_false] at * <;> simp at *
  · exact le_trans h1 h2
  · exact le_trans h2 h1

/-- If `m` is beaten by `y` but `r` is not beaten by `y`, then `r` is not
beaten by `m`. -/
theorem beats_not_of_beats {α : Type} [LinearOrder α] {b : Bool} {r m y : α}
    (h1 : beats b m y) (h2 : ¬ beats b r y) : ¬ beats b r m := by
  cases b <;> simp only [beats, if_true, if_false] at * <;> simp at *
  · exact le_of_lt (lt_of_le_of_lt h2 h1)
  · exact le_of_lt (lt_of_lt_of_le h1 h2)

theorem argBestGo_eq_none {α : Type} [LinearOrder α] (b : Bool) :
    ∀ (l : List (Option α)) (i : ℕ) (best : Option (ℕ × α)),
      argBestGo b l i best = none ↔ (best = none ∧ ∀ x ∈ l, x = none) := by
  intro l
  induction l with
  | nil => intro i best; simp [argBestGo]
  | cons x rest ih =>
    intro i best
    cases x with
    | none =>
      simp only [argBestGo]
      rw [ih]
      constructor
      · rintro ⟨h1, h2⟩
        exact ⟨h1, by intro y hy; rcases List.mem_cons.mp hy with h | h
                      · exact h
                      · exact h2 y h⟩
      · rintro ⟨h1, h2⟩
        exact ⟨h1, fun y hy => h2 y (List.mem_cons_of_mem _ hy)⟩
    | some v =>
      simp only [argBestGo]
      rw [ih]
      constructor
      · rintro ⟨h1, -⟩
        exfalso
        cases best with
        | none => simp at h1
        | some p =>
          rcases p with ⟨bi, bv⟩
          by_cases hb : beats b bv v <;> simp [hb] at h1
      · rintro ⟨-, h2⟩
        exact absurd (h2 (some v) (List.mem_cons_self _ _)) (by simp)

theorem argBestGo_dominates {α : Type} [LinearOrder α] (b : Bool) :
    ∀ (l : List (Option α)) (i : ℕ) (best : Option (ℕ × α)) (ri : ℕ) (rv : α),
      argBestGo b l i best = some (ri, rv) →
        (∀ bi bv, best = some (bi, bv) → ¬ beats b rv bv) ∧
        (∀ k v, l.getD k none = some v → ¬ beats b rv v) := by
  intro l
  induction l with
  | nil =>
    intro i best ri rv h
    simp only [argBestGo] at h
    refine ⟨?_, ?_⟩
    · intro bi bv hb
      rw [hb] at h
      cases h
      exact beats_irrefl b rv
    · intro k v hk
      simp at hk
  | cons x rest ih =>
    intro i best ri rv h
    cases x with
    | none =>
      simp only [argBestGo] at h
      obtain ⟨hdom, hent⟩ := ih (i + 1) best ri rv h
      refine ⟨hdom, ?_⟩
      intro k v hk
      cases k with
      | zero => simp at hk
      | succ m => exact hent m v (by simpa using hk)
    | some v =>
      simp only [argBestGo] at h
      obtain ⟨hdom, hent⟩ := ih (i + 1) _ ri rv h
      have hv : ¬ beats b rv v := by
        cases best with
        | none => exact hdom i v rfl
        | some p =>
          rcases p with ⟨bi, bv⟩
          by_cases hb : beats b bv v
          · simp only [hb, if_true] at hdom
            exact hdom i v rfl
          · simp only [hb, if_false] at hdom
            exact beats_trans_not (hdom bi bv rfl) hb
      refine ⟨?_, ?_⟩
      · intro bi bv hbest
        subst hbest
        by_cases hb : beats b bv v
        · simp only [hb, if_true] at hdom
          exact beats_not_of_beats hb hv
        · simp only [hb, if_false] at hdom
          exact hdom bi bv rfl
      · intro k w hk
        cases k with
        | zero =>
          simp only [List.getD_cons_zero] at hk
          cases hk
          exact hv
        | succ m => exact hent m w (by simpa using hk)

theorem argBestGo_src {α : Type} [LinearOrder α] (b : Bool) :
    ∀ (l : List (Option α)) (i : ℕ) (best : Option (ℕ × α)) (ri : ℕ) (rv : α),
      argBestGo b l i best = some (ri, rv) →
        best = some (ri, rv) ∨
          ∃ k, k < l.length ∧ l.getD k none = some rv ∧ ri = i + k := by
  intro l
  induction l with
  | nil =>
    intro i best ri rv h
    simp only [argBestGo] at h
    exact Or.inl h
  | cons x rest ih =>
    intro i best ri rv h
    cases x with
    | none =>
      simp only [argBestGo] at h
      rcases ih (i + 1) best ri rv h with h1 | ⟨k, hk, hg, hr⟩
      · exact Or.inl h1
      · exact Or.inr ⟨k + 1, by simpa using hk, by simpa using hg, by omega⟩
    | some v =>
      simp only [argBestGo] at h
      rcases ih (i + 1) _ ri rv h with h1 | ⟨k, hk, hg, hr⟩
      · cases best with
        | none =>
          simp only at h1
          cases h1
          exact Or.inr ⟨0, by simp, by simp, by omega⟩
        | some p =>
          rcases p with ⟨bi, bv⟩
          by_cases hb : beats b bv v
          · simp only [hb, if_true] at h1
            cases h1
            exact Or.inr ⟨0, by simp, by simp, by omega⟩
          · simp only [hb, if_false] at h1
            exact Or.inl h1
      · exact Or.inr ⟨k + 1, by simpa using hk, by simpa using hg, by omega⟩

theorem nanargmax_eq_none_iff {α : Type} [LinearOrder α] (l : List (Option α)) :
    nanargmax l = none ↔ ∀ x ∈ l, x = none := by
  unfold nanargmax
  rw [Option.map_eq_none']
  rw [argBestGo_eq_none]
  simp

theorem nanargmin_eq_none_iff {α : Type} [LinearOrder α] (l : List (Option α)) :
    nanargmin l = none ↔ ∀ x ∈ l, x = none := by
  unfold nanargmin
  rw [Option.map_eq_none']
  rw [argBestGo_eq_none]
  simp

theorem nanargmax_spec {α : Type} [LinearOrder α] {l : List (Option α)} {ri : ℕ}
    (h : nanargmax l = some ri) :
    ∃ rv, ri < l.length ∧ l.getD ri none = some rv ∧
      ∀ k v, l.getD k none = some v → v ≤ rv := by
  unfold nanargmax at h
  rcases Option.map_eq_some'.mp h with ⟨⟨ri', rv⟩, hgo, hfst⟩
  cases hfst
  rcases argBestGo_src true l 0 none ri' rv hgo with h1 | ⟨k, hk, hg, hr⟩
  · simp at h1
  · have hdom := (argBestGo_dominates true l 0 none ri' rv hgo).2
    have hri : ri' = k := by omega
    subst hri
    refine ⟨rv, hk, hg, ?_⟩
    intro k' v hk'
    have := hdom k' v hk'
    simpa [beats] using this

theorem nanargmin_spec {α : Type} [LinearOrder α] {l : List (Option α)} {ri : ℕ}
    (h : nanargmin l = some ri) :
    ∃ rv, ri < l.length ∧ l.getD ri none = some rv ∧
      ∀ k v, l.getD k none = some v → rv ≤ v := by
  unfold nanargmin at h
  rcases Option.map_eq_some'.mp h with ⟨⟨ri', rv⟩, hgo, hfst⟩
  cases hfst
  rcases argBestGo_src false l 0 none ri' rv hgo with h1 | ⟨k, hk, hg, hr⟩
  · simp at h1
  · have hdom := (argBestGo_dominates false l 0 none ri' rv hgo).2
    have hri : ri' = k := by omega
    subst hri
    refine ⟨rv, hk, hg, ?_⟩
    intro k' v hk'
    have := hdom k' v hk'
    simpa [beats] using this

/-! ### The Boltzmann-reweighted pick (_boltzmann_reweighted_pick)

Source (src/thompson_sampling.py lines 53-69): scores are negated in
minimize_boltzmann mode, divided by the stored warm-up spread
`self._warmup_std`, exponentiated with `np.exp`, normalised by `np.nansum`,
NaN entries of the normalised vector set to 0, and an index drawn with
`np.random.choice(probs.shape[0], p=probs)`.  NaN entries are `none`.
`np.exp` is libm's exponential, an external numerical routine; it enters the
embedding as an explicit function parameter `fexp` so that the development
stays executable, and the selection-policy claims are proved for every
strictly positive `fexp` (strict positivity everywhere is the property of the
exponential the algorithm relies on).  The division `scores /
self._warmup_std` is performed unconditionally by the source, so a zero
divisor is recorded as `none` for the whole term (IEEE arithmetic would
produce inf/NaN values there instead of finite numbers). -/

def nansum (l : List (Option ℚ)) : ℚ := (l.map (fun x => x.getD 0)).sum

/-- The vector `np.exp(scores / self._warmup_std)`; `none` as a whole records
that the code performed a division by zero (`self._warmup_std = 0`). -/
def boltzmann_exp_terms (fexp : ℚ → ℚ) (scores : List (Option ℚ)) (std : ℚ) :
    Option (List (Option ℚ)) :=
  if std = 0 then none
  else some (scores.map (Option.map (fun s => fexp (s / std))))

/-- The normalised probability vector after `probs[np.isnan(probs)] = 0.0`. -/
def boltzmann_probs (fexp : ℚ → ℚ) (scores : List (Option ℚ)) (std : ℚ) :
    Option (List ℚ) :=
  (boltzmann_exp_terms fexp scores std).map (fun ets =>
    ets.map (fun e => (Option.map (fun x => x / nansum ets) e).getD 0))

/-- Full transform of `_boltzmann_reweighted_pick` up to the random draw:
in minimize_boltzmann mode the sampled scores are negated first. -/
def boltzmann_reweighted_probs (fexp : ℚ → ℚ) (minimizeB : Bool)
    (scores : List (Option ℚ)) (std : ℚ) : Option (List ℚ) :=
  boltzmann_probs fexp
    (if minimizeB then scores.map (Option.map (fun v => -v)) else scores) std

/-- `np.random.choice(n, p=probs)` validates that the weights sum to 1
(raising `ValueError` otherwise) and draws one index carrying positive
probability. -/
def np_random_choice_ok (ps : List ℚ) : Prop := ps.sum = 1

theorem nansum_nonneg {l : List (Option ℚ)}
    (h : ∀ x ∈ l, ∀ v, x = some v → 0 ≤ v) : 0 ≤ nansum l := by
  induction l with
  | nil => simp [nansum]
  | cons x xs ih =>
    have hx : 0 ≤ x.getD 0 := by
      cases x with
      | none => simp
      | some v => simpa using h (some v) (List.mem_cons_self _ _) v rfl
    have hxs : 0 ≤ nansum xs :=
      ih (fun y hy v hv => h y (List.mem_cons_of_mem _ hy) v hv)
    simp only [nansum, List.map_cons, List.sum_cons]
    simp only [nansum] at hxs
    exact add_nonneg hx hxs

theorem nansum_pos {l : List (Option ℚ)}
    (hpos : ∀ x ∈ l, ∀ v, x = some v → 0 < v)
    {k : ℕ} {v : ℚ} (hk : l.getD k none = some v) : 0 < nansum l := by
  induction l generalizing k with
  | nil => simp at hk
  | cons x xs ih =>
    have hxs : 0 ≤ nansum xs :=
      nansum_nonneg (fun y hy w hw =>
        le_of_lt (hpos y (List.mem_cons_of_mem _ hy) w hw))
    have hx : 0 ≤ x.getD 0 := by
      cases x with
      | none => simp
      | some w =>
        simpa using le_of_lt (hpos (some w) (List.mem_cons_self _ _) w rfl)
    simp only [nansum, List.map_cons, List.sum_cons]
    cases k with
    | zero =>
      simp only [List.getD_cons_zero] at hk
      subst hk
      simp only [Option.getD_some]
      have hv := hpos (some v) (List.mem_cons_self _ _) v rfl
      simp only [nansum] at hxs
      linarith
    | succ m =>
      simp only [List.getD_cons_succ] at hk
      have h2 := ih (fun y hy w hw => hpos y (List.mem_cons_of_mem _ hy) w hw) hk
      simp only [nansum] at h2
      linarith

theorem nansum_all_none {l : List (Option ℚ)}
    (h : ∀ x ∈ l, x = none) : nansum l = 0 := by
  induction l with
  | nil => simp [nansum]
  | cons x xs ih =>
    have hx : x = none := h x (List.mem_cons_self _ _)
    subst hx
    have := ih (fun y hy => h y (List.mem_cons_of_mem _ hy))
    simp only [nansum, List.map_cons, List.sum_cons, Option.getD_none] at *
    simpa using this

theorem probs_sum_eq (S : ℚ) :
    ∀ (l : List (Option ℚ)),
      (l.map (fun e => (Option.map (fun x => x / S) e).getD 0)).sum
        = nansum l / S := by
  intro l
  induction l with
  | nil => simp [nansum]
  | cons x xs ih =>
    cases x with
    | none =>
      simp only [nansum, List.map_cons, List.sum_cons, Option.map_none,
        Option.getD_none] at *
      rw [ih]
      simp [nansum]
    | some v =>
      simp only [nansum, List.map_cons, List.sum_cons, Option.map_some,
        Option.getD_some] at *
      rw [ih]
      rw [add_div]
      simp

/-- Characterisation of the Boltzmann probability vector for a nonzero
warm-up spread: it always exists, it is a valid distribution whenever some
legal (non-NaN) entry remains, exactly the legal indices carry positive
probability, and it sums to zero (so `np.random.choice` rejects it) when
every entry is NaN. -/
theorem boltzmann_probs_spec (fexp : ℚ → ℚ) (hfexp : ∀ x, 0 < fexp x)
    (l : List (Option ℚ)) (std : ℚ) (hstd : std ≠ 0) :
    ∃ ps, boltzmann_probs fexp l std = some ps ∧ ps.length = l.length ∧
      ((∃ k v, l.getD k none = some v) →
         ps.sum = 1 ∧ ∀ i, 0 < ps.getD i 0 ↔ ∃ v, l.getD i none = some v) ∧
      ((∀ x ∈ l, x = none) → ps.sum = 0) := by
  have hterms : boltzmann_exp_terms fexp l std
      = some (l.map (Option.map (fun s => fexp (s / std)))) := by
    simp [boltzmann_exp_terms, hstd]
  set ets := l.map (Option.map (fun s => fexp (s / std))) with hets
  set S := nansum ets with hS
  refine ⟨ets.map (fun e => (Option.map (fun x => x / S) e).getD 0), ?_, ?_, ?_, ?_⟩
  · simp [boltzmann_probs, hterms]
  · simp [hets]
  · rintro ⟨k, v, hk⟩
    have hets_pos : ∀ x ∈ ets, ∀ w, x = some w → 0 < w := by
      intro x hx w hw
      rcases List.mem_map.mp hx with ⟨y, -, hy⟩
      subst hy
      cases y with
      | none => simp at hw
      | some s =>
        simp only [Option.map_some'] at hw
        cases hw
        exact hfexp _
    have hgk : ets.getD k none = some (fexp (v / std)) := by
      rw [hets, getD_map_option, hk]
      rfl
    have hSpos : 0 < S := nansum_pos hets_pos hgk
    constructor
    · rw [probs_sum_eq]
      exact div_self (ne_of_gt hSpos)
    · intro i
      have hgetD : (ets.map (fun e => (Option.map (fun x => x / S) e).getD 0)).getD i 0
          = (Option.map (fun x => x / S) (ets.getD i none)).getD 0 :=
        getD_map_zero _ (by simp) ets i
      rw [hgetD]
      have hmapi : ets.getD i none = Option.map (fun s => fexp (s / std)) (l.getD i none) := by
        rw [hets, getD_map_option]
      constructor
      · intro hpos
        rcases h : l.getD i none with - | w
        · rw [hmapi, h] at hpos
          simp at hpos
        · exact ⟨w, rfl⟩
      · rintro ⟨w, hw⟩
        rw [hmapi, hw]
        simp only [Option.map_some', Option.getD_some]
        exact div_pos (hfexp _) hSpos
  · intro hnone
    have hets_none : ∀ x ∈ ets, x = none := by
      intro x hx
      rcases List.mem_map.mp hx with ⟨y, hy, hxy⟩
      subst hxy
      rw [hnone y hy]
      rfl
    rw [probs_sum_eq]
    have h0 : S = 0 := by rw [hS]; exact nansum_all_none hets_none
    rw [h0]
    simp

/-! ### numpy / Python reductions used by the engine -/

/-- Population mean, `np.mean` (on an empty list numpy returns NaN without
raising; the engine only consumes the value on nonempty data). -/
def np_mean (l : List ℚ) : ℚ := l.sum / l.length

/-- Population variance; `np.std` is its square root (the engine stores
`self._warmup_std = np.std(warmup_scores)`, i.e. `Real.sqrt (np_var l)`). -/
def np_var (l : List ℚ) : ℚ :=
  (l.map (fun x => (x - np_mean l) ^ 2)).sum / l.length

/-- `np.min`; `none` encodes the `ValueError: zero-size array to reduction
operation minimum which has no identity` raised on an empty array. -/
def np_min (l : List ℚ) : Option ℚ :=
  match l with
  | [] => none
  | x :: xs => some (xs.foldl min x)

/-- `np.max`, dually. -/
def np_max (l : List ℚ) : Option ℚ :=
  match l with
  | [] => none
  | x :: xs => some (xs.foldl max x)

/-- A `(score, smiles, name)` record, as appended to `warmup_results` and
`out_list` by the source (Python list `[score, smiles, name]`). -/
abbrev SRec := ℚ × String × String

/-- Python's lexicographic comparison of the `[score, smiles, name]` lists,
used by the built-in `max` / `min` stored in `self._top_func`. -/
def lexLt (a b : SRec) : Prop :=
  a.1 < b.1 ∨ (a.1 = b.1 ∧ (a.2.1 < b.2.1 ∨ (a.2.1 = b.2.1 ∧ a.2.2 < b.2.2)))

instance (a b : SRec) : Decidable (lexLt a b) := by
  unfold lexLt
  infer_instance

/-- Python's built-in `max` (for `use_max = true`) or `min` over a list,
keeping the first of equal extrema; `none` encodes the `ValueError` raised on
an empty sequence. -/
def py_extreme (use_max : Bool) (l : List SRec) : Option SRec :=
  match l with
  | [] => none
  | x :: xs =>
    some (xs.foldl
      (fun b y => if (if use_max then lexLt b y else lexLt y b) then y else b) x)

/-- The two values `self._top_func` can hold (the built-ins `max` / `min`). -/
inductive TopFunc where
  | py_max : TopFunc
  | py_min : TopFunc
  deriving DecidableEq, Repr

def top_func : TopFunc → List SRec → Option SRec
  | .py_max, l => py_extreme true l
  | .py_min, l => py_extreme false l

/-- The `ValueError` message of the built-in on an empty sequence. -/
def top_func_msg : TopFunc → String
  | .py_max => "max() arg is an empty sequence"
  | .py_min => "min() arg is an empty sequence"

/-- The four values `self.pick_function` can hold. -/
inductive PickKind where
  | argmax_pick : PickKind
  | argmin_pick : PickKind
  | boltzmann_pick : PickKind
  deriving DecidableEq, Repr

/-- The mode dispatch of `ThompsonSampler.__init__` (lines 34-50): the four
recognized mode strings select `(pick_function, _top_func)`; any other string
raises `ValueError(f"{mode} is not a supported argument")`. -/
def init_mode (mode : String) : Except String (PickKind × TopFunc) :=
  if mode = "maximize" then .ok (.argmax_pick, .py_max)
  else if mode = "minimize" then .ok (.argmin_pick, .py_min)
  else if mode = "maximize_boltzmann" then .ok (.boltzmann_pick, .py_max)
  else if mode = "minimize_boltzmann" then .ok (.boltzmann_pick, .py_min)
  else .error (mode ++ " is not a supported argument")

/-! ### The engine state and its environment of external collaborators -/

/-- Mutable state of a `ThompsonSampler` instance that the claims concern:
the per-slot reagent lists and the DisallowTracker state (of abstract type
`τ`), plus a counter `rng` into the random streams of the environment. -/
structure TSState (τ : Type) where
  reagent_lists : List (List Reagent)
  tracker : τ
  rng : ℕ
  deriving Repr

/-- External collaborators of the engine, none of which live in src/:
the DisallowTracker operations (disallow_tracker.py), the
reaction/assembler plus evaluator (RDKit and evaluators.py; `run_reactants`
returns the product smiles or `none` when no product forms, `evaluator`
returns the score when it is finite and `none` for a non-finite result — both
deterministic in the chosen reagent combination), and the random sources
(`uniform`/`normal` index a stream of draw vectors by the state's counter;
`sample` gives the slot visiting order `random.sample(range(n), n)` of each
search cycle). -/
structure Env (τ : Type) where
  get_disallowed_selection_mask : τ → List Cell → Finset ℕ
  update : τ → List Cell → τ
  retire_one_synthon : τ → ℕ → ℕ → τ
  run_reactants : List ℕ → Option String
  evaluator : List ℕ → Option ℚ
  uniform : ℕ → List ℚ
  normal : ℕ → List ℚ
  sample : ℕ → List ℕ

/-- The reagents selected by a choice list (`self.reagent_lists[idx][choice]`
for each component). -/
def selectedReagents : List (List Reagent) → List ℕ → List Reagent
  | _, [] => []
  | [], _ :: _ => []
  | row :: rest, c :: cs => row.getD c dfltReagent :: selectedReagents rest cs

/-- `"_".join([reagent.reagent_name for reagent in selected_reagents])`. -/
def productNameOf (rls : List (List Reagent)) (choice_list : List ℕ) : String :=
  String.intercalate "_" ((selectedReagents rls choice_list).map Reagent.reagent_name)

/-- `[reagent.add_score(res) for reagent in selected_reagents]`: the score is
fed into the belief of the chosen reagent of each component. -/
def addScoreAll (v : ℚ) : List (List Reagent) → List ℕ → List (List Reagent)
  | rls, [] => rls
  | [], _ :: _ => []
  | row :: rest, c :: cs =>
    modifyAt (fun r => Reagent.add_score r v) c row :: addScoreAll v rest cs

/-- The reagent at slot `i`, index `j`. -/
def reagentAt (rls : List (List Reagent)) (i j : ℕ) : Reagent :=
  (rls.getD i []).getD j dfltReagent

/-- `ThompsonSampler.evaluate` (lines 111-135): assemble the product for a
choice list, score it, and feed a finite score into every selected reagent's
belief.  Returns the updated state with `(product_smiles, product_name,
res)`; `res = none` models the NaN kept when no product forms and a
non-finite evaluator result. -/
def evaluate (env : Env τ) (st : TSState τ) (choice_list : List ℕ) :
    TSState τ × String × String × Option ℚ :=
  let product_name := productNameOf st.reagent_lists choice_list
  match env.run_reactants choice_list with
  | none => (st, "FAIL", product_name, none)
  | some product_smiles =>
    match env.evaluator choice_list with
    | none => (st, product_smiles, product_name, none)
    | some res =>
      ({ st with reagent_lists := addScoreAll res st.reagent_lists choice_list },
        product_smiles, product_name, some res)

/-- First `count` entries of a random draw vector,
`np.random.uniform(size=count)` / `rng.normal(size=count)`. -/
def vecOf (l : List ℚ) (count : ℕ) : List ℚ :=
  (List.range count).map (fun k => l.getD k 0)

/-- `rng.normal(size=len) * stds + mu`, elementwise. -/
def choiceRow : List ℚ → List ℚ → List ℚ → List ℚ
  | z :: zs, s :: ss, m :: ms => (z * s + m) :: choiceRow zs ss ms
  | _, _, _ => []

/-- Read a finished selection vector as the list of chosen indices passed to
`DisallowTracker.update` and `evaluate` (the sentinel cells never remain in a
finished vector). -/
def cellIdxList (l : List Cell) : List ℕ :=
  l.map (fun c => match c with | Cell.Fill j => j | _ => 0)

/-- The pick functions searched claims instantiate for the extremum modes:
`np.nanargmax(choice_row)` raising `ValueError` on an all-NaN row. -/
def nanargmax_pick (l : List (Option ℚ)) : Except String ℕ :=
  match nanargmax l with
  | some i => .ok i
  | none => .error "All-NaN slice encountered"

def nanargmin_pick (l : List (Option ℚ)) : Except String ℕ :=
  match nanargmin l with
  | some i => .ok i
  | none => .error "All-NaN slice encountered"

/-! ### Warm-up (ThompsonSampler.warm_up, lines 137-197) -/

/-- `current_list = [DisallowTracker.Empty] * len(idx_list)` then
`current_list[i] = DisallowTracker.To_Fill`. -/
def warmup_base (n i : ℕ) : List Cell :=
  (List.replicate n Cell.Empty).set i Cell.To_Fill

/-- `partner_list = [x for x in idx_list if x != i]`. -/
def partner_list (n i : ℕ) : List ℕ :=
  (List.range n).filter (fun x => x ≠ i)

/-- Randomly select a reagent for one partner component `p` (lines 161-170):
mark it To_Fill, query the disallow mask, draw uniform selection scores, null
the disallowed ones, and take `np.nanargmax`. -/
def warmupPartnerFill (env : Env τ) (tracker : τ) (counts : List ℕ)
    (cur : List Cell) (t p : ℕ) : Except String (List Cell × ℕ) :=
  let cur1 := cur.set p Cell.To_Fill
  let mask := env.get_disallowed_selection_mask tracker cur1
  let selection_scores := vecOf (env.uniform t) (counts.getD p 0)
  match nanargmax (applyMask selection_scores mask) with
  | none => .error "All-NaN slice encountered"
  | some sel => .ok (cur1.set p (Cell.Fill sel), t + 1)

/-- The loop over `partner_list`. -/
def warmupPartnerLoop (env : Env τ) (tracker : τ) (counts : List ℕ) :
    List ℕ → List Cell × ℕ → Except String (List Cell × ℕ)
  | [], acc => .ok acc
  | p :: ps, (cur, t) =>
    match warmupPartnerFill env tracker counts cur t p with
    | .error e => .error e
    | .ok acc1 => warmupPartnerLoop env tracker counts ps acc1

/-- One iteration of the `for k in range(0, num_warmup_trials)` body for slot
`i`, candidate `j` (lines 153-174): if `j` is in the disallow mask of slot `i`
nothing at all happens; otherwise `j` is committed to slot `i`, partners are
drawn for every other slot, the full vector is committed to the tracker via
`update`, and the combination is evaluated, appending a finite-score record
to `warmup_results`. -/
def warmupAttempt (env : Env τ) (st : TSState τ) (results : List SRec)
    (i j : ℕ) : Except String (TSState τ × List SRec) :=
  let n := st.reagent_lists.length
  let cur1 := warmup_base n i
  if j ∈ env.get_disallowed_selection_mask st.tracker cur1 then .ok (st, results)
  else
    match warmupPartnerLoop env st.tracker (st.reagent_lists.map List.length)
        (partner_list n i) (cur1.set i (Cell.Fill j), st.rng) with
    | .error e => .error e
    | .ok (cur, t) =>
      let st1 : TSState τ := { st with tracker := env.update st.tracker cur, rng := t }
      match evaluate env st1 (cellIdxList cur) with
      | (st2, product_smiles, product_name, some score) =>
        .ok (st2, results ++ [(score, product_smiles, product_name)])
      | (st2, _, _, none) => .ok (st2, results)

/-- `for k in range(0, num_warmup_trials)`: exactly `k` attempts in
sequence. -/
def warmupTrials (env : Env τ) (i j : ℕ) :
    ℕ → TSState τ × List SRec → Except String (TSState τ × List SRec)
  | 0, acc => .ok acc
  | k + 1, (st, results) =>
    match warmupAttempt env st results i j with
    | .error e => .error e
    | .ok acc1 => warmupTrials env i j k acc1

/-- `for j in tqdm(range(0, current_max), ...)`. -/
def warmupJLoop (env : Env τ) (i T : ℕ) :
    List ℕ → TSState τ × List SRec → Except String (TSState τ × List SRec)
  | [], acc => .ok acc
  | j :: js, acc =>
    match warmupTrials env i j T acc with
    | .error e => .error e
    | .ok acc1 => warmupJLoop env i T js acc1

/-- `for i in idx_list`. -/
def warmupILoop (env : Env τ) (T : ℕ) (counts : List ℕ) :
    List ℕ → TSState τ × List SRec → Except String (TSState τ × List SRec)
  | [], acc => .ok acc
  | i :: is, acc =>
    match warmupJLoop env i T (List.range (counts.getD i 0)) acc with
    | .error e => .error e
    | .ok acc1 => warmupILoop env T counts is acc1

/-- `reagent.init_given_prior` over one component list, retiring (via
`DisallowTracker.retire_one_synthon`) every reagent whose initialisation
raises (lines 188-195). -/
def initRow (env : Env τ) (pm pv : ℚ) (i : ℕ) :
    List Reagent → τ → ℕ → List Reagent × τ
  | [], tr, _ => ([], tr)
  | r :: rs, tr, j =>
    match r.init_given_prior pm pv with
    | some r1 =>
      let (rest, tr1) := initRow env pm pv i rs tr (j + 1)
      (r1 :: rest, tr1)
    | none =>
      let (rest, tr1) := initRow env pm pv i rs (env.retire_one_synthon tr i j) (j + 1)
      (r :: rest, tr1)

def initAll (env : Env τ) (pm pv : ℚ) :
    List (List Reagent) → τ → ℕ → List (List Reagent) × τ
  | [], tr, _ => ([], tr)
  | row :: rest, tr, i =>
    let (row1, tr1) := initRow env pm pv i row tr 0
    let (rest1, tr2) := initAll env pm pv rest tr1 (i + 1)
    (row1 :: rest1, tr2)

/-- The tail of `warm_up` after the trials (lines 176-197): the summary-stats
logging line evaluates `np.mean` and `np.std` (no exception even on empty
data) and then `np.min`, which raises `ValueError` on an empty score list;
afterwards the global prior is computed and every reagent initialised,
retiring the ones without observations.  The float `self._warmup_std` stored
by the source is `Real.sqrt (np_var scores)`; the modelled initialiser takes
the (rational) prior variance since its numeric arguments are unused. -/
def warmupFinalize (env : Env τ) (st : TSState τ) (results : List SRec) :
    Except String (TSState τ × List SRec) :=
  let warmup_scores := results.map (fun r => r.1)
  match np_min warmup_scores with
  | none => .error "zero-size array to reduction operation minimum which has no identity"
  | some _ =>
    let prior_mean := np_mean warmup_scores
    let prior_var := np_var warmup_scores
    let (rls, tr) := initAll env prior_mean prior_var st.reagent_lists st.tracker 0
    .ok ({ st with reagent_lists := rls, tracker := tr }, results)

/-- `ThompsonSampler.warm_up` (lines 137-197). -/
def warm_up (env : Env τ) (st : TSState τ) (num_warmup_trials : ℕ) :
    Except String (TSState τ × List SRec) :=
  match warmupILoop env num_warmup_trials (st.reagent_lists.map List.length)
      (List.range st.reagent_lists.length) (st, []) with
  | .error e => .error e
  | .ok (st1, results) => warmupFinalize env st1 results

/-! ### Search (ThompsonSampler.search, lines 199-226) -/

/-- Fill one slot `cycle_id` during a search cycle (lines 209-217): mark it
To_Fill, query the disallow mask, sample one value per reagent from its
posterior (the normal draw enters via the oracle stream), null the disallowed
entries and apply the configured pick function. -/
def searchFillSlot (env : Env τ) (pick : List (Option ℚ) → Except String ℕ)
    (rls : List (List Reagent)) (tracker : τ) (sel : List Cell) (t cycle_id : ℕ) :
    Except String (List Cell × ℕ) :=
  let reagent_list := rls.getD cycle_id []
  let sel1 := sel.set cycle_id Cell.To_Fill
  let mask := env.get_disallowed_selection_mask tracker sel1
  let stds := reagent_list.map Reagent.current_std
  let mus := reagent_list.map Reagent.current_mean
  let choice_row := choiceRow (vecOf (env.normal t) reagent_list.length) stds mus
  match pick (applyMask choice_row mask) with
  | .error e => .error e
  | .ok choice => .ok (sel1.set cycle_id (Cell.Fill choice), t + 1)

/-- `for cycle_id in random.sample(range(0, len(self.reagent_lists)), ...)`. -/
def searchSlotLoop (env : Env τ) (pick : List (Option ℚ) → Except String ℕ)
    (rls : List (List Reagent)) (tracker : τ) :
    List ℕ → List Cell × ℕ → Except String (List Cell × ℕ)
  | [], acc => .ok acc
  | cid :: cids, (sel, t) =>
    match searchFillSlot env pick rls tracker sel t cid with
    | .error e => .error e
    | .ok acc1 => searchSlotLoop env pick rls tracker cids acc1

/-- One search cycle (lines 207-225): fill every slot in the sampled order,
commit the full vector to the tracker, evaluate it, record a finite score,
and at every 100th cycle report the best record so far (`self._top_func`
raises on an empty output list). -/
def searchCycle (env : Env τ) (pick : List (Option ℚ) → Except String ℕ)
    (tf : TopFunc) (st : TSState τ) (c : ℕ) (out : List SRec) :
    Except String (TSState τ × List SRec) :=
  match searchSlotLoop env pick st.reagent_lists st.tracker (env.sample c)
      (List.replicate st.reagent_lists.length Cell.Empty, st.rng) with
  | .error e => .error e
  | .ok (sel, t) =>
    let st1 : TSState τ := { st with tracker := env.update st.tracker sel, rng := t }
    match evaluate env st1 (cellIdxList sel) with
    | (st2, smiles, name, score) =>
      let out1 := match score with
        | some v => out ++ [(v, smiles, name)]
        | none => out
      if c % 100 = 0 then
        match top_func tf out1 with
        | none => .error (top_func_msg tf)
        | some _ => .ok (st2, out1)
      else .ok (st2, out1)

/-- `for i in tqdm(range(0, num_cycles), ...)`. -/
def searchLoop (env : Env τ) (pick : List (Option ℚ) → Except String ℕ)
    (tf : TopFunc) : List ℕ → TSState τ × List SRec → Except String (TSState τ × List SRec)
  | [], acc => .ok acc
  | c :: cs, (st, out) =>
    match searchCycle env pick tf st c out with
    | .error e => .error e
    | .ok acc1 => searchLoop env pick tf cs acc1

/-- `ThompsonSampler.search` (lines 199-226). -/
def search (env : Env τ) (pick : List (Option ℚ) → Except String ℕ)
    (tf : TopFunc) (st : TSState τ) (num_cycles : ℕ) :
    Except String (TSState τ × List SRec) :=
  searchLoop env pick tf (List.range num_cycles) (st, [])

/-! ### Further access helpers used by the claim proofs -/

theorem lt_of_getElem?_some {l : List α} {k : ℕ} {x : α}
    (h : l[k]? = some x) : k < l.length := by
  induction l generalizing k with
  | nil => simp at h
  | cons y ys ih =>
    cases k with
    | zero => simp
    | succ m =>
      simp only [List.getElem?_cons_succ] at h
      simpa using ih h

theorem getD_of_getElem?_some {l : List α} {k : ℕ} {x : α}
    (h : l[k]? = some x) (d : α) : l.getD k d = x := by
  induction l generalizing k with
  | nil => simp at h
  | cons y ys ih =>
    cases k with
    | zero => simp_all
    | succ m =>
      simp only [List.getElem?_cons_succ] at h
      simpa using ih h

theorem getElem?_some_of_lt {l : List α} {k : ℕ} (h : k < l.length) :
    ∃ x, l[k]? = some x := by
  induction l generalizing k with
  | nil => simp at h
  | cons y ys ih =>
    cases k with
    | zero => exact ⟨y, by simp⟩
    | succ m =>
      have h1 : m < ys.length := by simpa using h
      rcases ih h1 with ⟨x, hx⟩
      exact ⟨x, by simpa using hx⟩

theorem mem_getElem? {l : List α} {x : α} (h : x ∈ l) :
    ∃ k : ℕ, l[k]? = some x := by
  induction l with
  | nil => simp at h
  | cons y ys ih =>
    rcases List.mem_cons.mp h with h1 | h1
    · exact ⟨0, by simp [h1]⟩
    · rcases ih h1 with ⟨k, hk⟩
      exact ⟨k + 1, by simpa using hk⟩

/-- Legality of an entry of the (possibly negated) masked score row. -/
theorem applyMask_legal_iff (xs : List ℚ) (mask : Finset ℕ) (i : ℕ) :
    (∃ v, (applyMask xs mask).getD i none = some v) ↔
      (i < xs.length ∧ i ∉ mask) := by
  rw [applyMask_getD]
  by_cases hm : i ∈ mask
  · simp [hm]
  · rw [if_neg hm]
    constructor
    · rintro ⟨v, hv⟩
      exact ⟨lt_of_getElem?_some hv, hm⟩
    · rintro ⟨hlt, -⟩
      exact getElem?_some_of_lt hlt

/-! ### Concrete instances used by the witnesses -/

/-- A one-slot, one-reagent engine state over the trivial tracker type. -/
def stOne : TSState Unit :=
  { reagent_lists := [[dfltReagent]], tracker := (), rng := 0 }

/-- An environment whose evaluator never returns a finite score (assembly
always succeeds, the disallow mask is empty, tracker operations are
trivial). -/
def envNoFinite : Env Unit :=
  { get_disallowed_selection_mask := fun _ _ => ∅
    update := fun t _ => t
    retire_one_synthon := fun t _ _ => t
    run_reactants := fun _ => some "S"
    evaluator := fun _ => none
    uniform := fun _ => []
    normal := fun _ => []
    sample := fun _ => [0] }

/-- An environment whose assembler never produces a product. -/
def envAssembleFail : Env Unit :=
  { envNoFinite with run_reactants := fun _ => none }

/-- An environment whose evaluation always succeeds with score 7. -/
def envScore7 : Env Unit :=
  { envNoFinite with evaluator := fun _ => some 7 }

/-! ### Claims -/

/-- C8: constructing the engine with any mode string outside the four
recognized variants (maximize, minimize, maximize_boltzmann,
minimize_boltzmann) fails with a configuration error (`ValueError`), and
construction with any of the four recognized variants succeeds. -/
theorem claim_C8_mode_configuration (mode : String) :
    (∃ cfg, init_mode mode = .ok cfg) ↔
      (mode = "maximize" ∨ mode = "minimize" ∨
       mode = "maximize_boltzmann" ∨ mode = "minimize_boltzmann") := by
  constructor
  · rintro ⟨cfg, h⟩
    by_cases h1 : mode = "maximize"
    · exact Or.inl h1
    by_cases h2 : mode = "minimize"
    · exact Or.inr (Or.inl h2)
    by_cases h3 : mode = "maximize_boltzmann"
    · exact Or.inr (Or.inr (Or.inl h3))
    by_cases h4 : mode = "minimize_boltzmann"
    · exact Or.inr (Or.inr (Or.inr h4))
    simp [init_mode, h1, h2, h3, h4] at h
  · rintro (h | h | h | h) <;> subst h <;> exact ⟨_, rfl⟩

/-- C5: the claim says the Boltzmann transform guards against a zero-width
warm-up spread; the code does not.  With all warm-up scores equal (e.g.
three scores of 5) the population variance — hence `np.std`, the stored
`self._warmup_std = Real.sqrt (np_var scores)` — is exactly zero, and
`_boltzmann_reweighted_pick` then computes `scores / 0` unconditionally
(recorded as `none` by `boltzmann_exp_terms`); for every nonzero spread no
division by zero happens. -/
theorem claim_C5_boltzmann_divides_by_zero_spread :
    np_var [5, 5, 5] = 0 ∧
    Real.sqrt ((np_var [5, 5, 5] : ℚ) : ℝ) = 0 ∧
    (∀ fexp scores, boltzmann_exp_terms fexp scores (np_var [5, 5, 5]) = none) ∧
    (∀ fexp scores (std : ℚ), std ≠ 0 → boltzmann_exp_terms fexp scores std ≠ none) := by
  have hvar : np_var [5, 5, 5] = 0 := by norm_num [np_var, np_mean]
  refine ⟨hvar, ?_, ?_, ?_⟩
  · rw [hvar]
    simp
  · intro fexp scores
    rw [hvar]
    simp [boltzmann_exp_terms]
  · intro fexp scores std hstd
    simp [boltzmann_exp_terms, hstd]

/-- C9: if the warm-up trials finish with no finite score recorded
(`warmup_results` empty), `warm_up` raises while computing the warm-up
summary statistics (`np.min` of the empty score list), instead of
initialising the reagents and becoming ready. -/
theorem claim_C9_warmup_raises_without_finite_scores (env : Env τ)
    (st st1 : TSState τ) (T : ℕ)
    (h : warmupILoop env T (st.reagent_lists.map List.length)
        (List.range st.reagent_lists.length) (st, []) = .ok (st1, [])) :
    warm_up env st T
      = .error "zero-size array to reduction operation minimum which has no identity" := by
  unfold warm_up
  rw [h]
  rfl

theorem claim_C9_witness :
    warmupILoop envNoFinite 1 (stOne.reagent_lists.map List.length)
        (List.range stOne.reagent_lists.length) (stOne, []) = .ok (stOne, []) ∧
    warm_up envNoFinite stOne 1
      = .error "zero-size array to reduction operation minimum which has no identity" :=
  ⟨rfl, claim_C9_warmup_raises_without_finite_scores envNoFinite stOne stOne 1 rfl⟩

/-- C10: if the very first search cycle's evaluation yields no finite score
(assembly fails or the evaluator returns non-finite) the output list is still
empty at iteration 0, and `search` raises at the iteration-0 best-score
report (`self._top_func` of an empty sequence) instead of running the
remaining cycles. -/
theorem claim_C10_search_raises_at_iteration_zero (env : Env τ)
    (pick : List (Option ℚ) → Except String ℕ) (tf : TopFunc)
    (st : TSState τ) (T : ℕ) (sel : List Cell) (t1 : ℕ)
    (hT : 0 < T)
    (hfill : searchSlotLoop env pick st.reagent_lists st.tracker (env.sample 0)
        (List.replicate st.reagent_lists.length Cell.Empty, st.rng) = .ok (sel, t1))
    (hfail : env.run_reactants (cellIdxList sel) = none ∨
      env.evaluator (cellIdxList sel) = none) :
    search env pick tf st T = .error (top_func_msg tf) := by
  obtain ⟨S, rfl⟩ : ∃ S, T = S + 1 := ⟨T - 1, by omega⟩
  have hcyc : searchCycle env pick tf st 0 [] = .error (top_func_msg tf) := by
    unfold searchCycle
    rw [hfill]
    rcases hfail with hf | hf
    · simp only [evaluate, hf]
      cases tf <;> rfl
    · rcases hr : env.run_reactants (cellIdxList sel) with - | sm
      · simp only [evaluate, hr]
        cases tf <;> rfl
      · simp only [evaluate, hr, hf]
        cases tf <;> rfl
  unfold search
  rw [List.range_succ_eq_map]
  simp [searchLoop, hcyc]

theorem claim_C10_witness :
    0 < 1 ∧
    searchSlotLoop envAssembleFail nanargmax_pick stOne.reagent_lists stOne.tracker
        (envAssembleFail.sample 0)
        (List.replicate stOne.reagent_lists.length Cell.Empty, stOne.rng)
      = .ok ([Cell.Fill 0], 1) ∧
    envAssembleFail.run_reactants (cellIdxList [Cell.Fill 0]) = none ∧
    search envAssembleFail nanargmax_pick TopFunc.py_max stOne 1
      = .error (top_func_msg TopFunc.py_max) :=
  ⟨Nat.one_pos, rfl, rfl,
    claim_C10_search_raises_at_iteration_zero envAssembleFail nanargmax_pick
      TopFunc.py_max stOne 1 [Cell.Fill 0] 1 Nat.one_pos rfl (Or.inl rfl)⟩

/-- Error behaviour of the extremum picks on a masked row: `np.nanargmax`
raises exactly when the disallow set covers the whole slot. -/
theorem nanargmax_applyMask_none_iff (xs : List ℚ) (mask : Finset ℕ) :
    nanargmax (applyMask xs mask) = none ↔ ∀ k, k < xs.length → k ∈ mask := by
  rw [nanargmax_eq_none_iff]
  constructor
  · intro hall k hk
    by_contra hkm
    rcases getElem?_some_of_lt (l := xs) hk with ⟨v, hv⟩
    have hD : (applyMask xs mask).getD k none = some v := by
      rw [applyMask_getD, if_neg hkm, hv]
    exact absurd (hall _ (getD_some_mem hD)) (by simp)
  · intro hcov x hx
    rcases mem_getElem? hx with ⟨k, hk⟩
    have hklen : k < (applyMask xs mask).length := lt_of_getElem?_some hk
    have hD : (applyMask xs mask).getD k none = x := getD_of_getElem?_some hk none
    rw [applyMask_getD] at hD
    have hkx : k < xs.length := by simpa using hklen
    rw [if_pos (hcov k hkx)] at hD
    exact hD.symm

theorem nanargmin_applyMask_none_iff (xs : List ℚ) (mask : Finset ℕ) :
    nanargmin (applyMask xs mask) = none ↔ ∀ k, k < xs.length → k ∈ mask := by
  rw [nanargmin_eq_none_iff]
  constructor
  · intro hall k hk
    by_contra hkm
    rcases getElem?_some_of_lt (l := xs) hk with ⟨v, hv⟩
    have hD : (applyMask xs mask).getD k none = some v := by
      rw [applyMask_getD, if_neg hkm, hv]
    exact absurd (hall _ (getD_some_mem hD)) (by simp)
  · intro hcov x hx
    rcases mem_getElem? hx with ⟨k, hk⟩
    have hklen : k < (applyMask xs mask).length := lt_of_getElem?_some hk
    have hD : (applyMask xs mask).getD k none = x := getD_of_getElem?_some hk none
    rw [applyMask_getD] at hD
    have hkx : k < xs.length := by simpa using hklen
    rw [if_pos (hcov k hkx)] at hD
    exact hD.symm

/-- A successful extremum pick on a masked row lands on a legal index. -/
theorem nanargmax_applyMask_legal (xs : List ℚ) (mask : Finset ℕ) (i : ℕ)
    (h : nanargmax (applyMask xs mask) = some i) :
    i < xs.length ∧ i ∉ mask := by
  rcases nanargmax_spec h with ⟨rv, hlt, hD, -⟩
  have hlen : i < xs.length := by simpa using hlt
  refine ⟨hlen, ?_⟩
  rw [applyMask_getD] at hD
  by_contra hm
  rw [if_pos hm] at hD
  exact Option.noConfusion hD

theorem nanargmin_applyMask_legal (xs : List ℚ) (mask : Finset ℕ) (i : ℕ)
    (h : nanargmin (applyMask xs mask) = some i) :
    i < xs.length ∧ i ∉ mask := by
  rcases nanargmin_spec h with ⟨rv, hlt, hD, -⟩
  have hlen : i < xs.length := by simpa using hlt
  refine ⟨hlen, ?_⟩
  rw [applyMask_getD] at hD
  by_contra hm
  rw [if_pos hm] at hD
  exact Option.noConfusion hD

/-- C1: over any sampled-value row and any disallow set that does not cover
the whole slot, each selection-policy variant yields exactly one legal index:
the Max/Min picks return `some` legal index and raise (`none`) exactly when
the disallow set covers the slot; the Boltzmann transform (for any strictly
positive exponential and nonzero stored warm-up spread) produces a weight
vector that `np.random.choice` accepts (sums to 1) in which exactly the legal
indices carry positive probability — so the drawn index is legal — and which
sums to 0 (so `np.random.choice` raises `ValueError`) when the disallow set
covers the slot. -/
theorem claim_C1_selection_policy_one_legal_index (xs rs : List ℚ)
    (mq mr : Finset ℕ) (fexp : ℚ → ℚ) (minimizeB : Bool) (std : ℚ)
    (hfexp : ∀ x, 0 < fexp x) (hstd : std ≠ 0) :
    (nanargmax (applyMask xs mq) = none ↔ ∀ k, k < xs.length → k ∈ mq) ∧
    (∀ i, nanargmax (applyMask xs mq) = some i → i < xs.length ∧ i ∉ mq) ∧
    (nanargmin (applyMask xs mq) = none ↔ ∀ k, k < xs.length → k ∈ mq) ∧
    (∀ i, nanargmin (applyMask xs mq) = some i → i < xs.length ∧ i ∉ mq) ∧
    (∃ ps, boltzmann_reweighted_probs fexp minimizeB (applyMask rs mr) std = some ps ∧
      ((∃ k, k < rs.length ∧ k ∉ mr) →
        np_random_choice_ok ps ∧ ∀ i, 0 < ps.getD i 0 ↔ (i < rs.length ∧ i ∉ mr)) ∧
      ((∀ k, k < rs.length → k ∈ mr) → ¬ np_random_choice_ok ps)) := by
  refine ⟨nanargmax_applyMask_none_iff xs mq, nanargmax_applyMask_legal xs mq,
    nanargmin_applyMask_none_iff xs mq, nanargmin_applyMask_legal xs mq, ?_⟩
  set l : List (Option ℚ) :=
    if minimizeB then (applyMask rs mr).map (Option.map (fun v => -v))
    else applyMask rs mr with hl
  have hleg : ∀ i, (∃ v, l.getD i none = some v) ↔ (i < rs.length ∧ i ∉ mr) := by
    intro i
    rw [← applyMask_legal_iff rs mr i]
    cases minimizeB with
    | false => simp [hl]
    | true =>
      simp only [hl, if_true]
      rw [getD_map_option]
      rcases (applyMask rs mr).getD i none with - | w <;> simp
  obtain ⟨ps, hps, -, hlegal, hnone⟩ :=
    boltzmann_probs_spec fexp hfexp l std hstd
  refine ⟨ps, ?_, ?_, ?_⟩
  · rw [boltzmann_reweighted_probs, ← hl]
    exact hps
  · rintro ⟨k, hk, hkm⟩
    obtain ⟨v, hv⟩ := (hleg k).mpr ⟨hk, hkm⟩
    obtain ⟨hsum, hpos⟩ := hlegal ⟨k, v, hv⟩
    refine ⟨hsum, ?_⟩
    intro i
    rw [hpos i, hleg i]
  · intro hcov
    have hall : ∀ x ∈ l, x = none := by
      intro x hx
      rcases mem_getElem? hx with ⟨k, hk⟩
      rcases x with - | v
      · rfl
      · exfalso
        have hD : l.getD k none = some v := getD_of_getElem?_some hk none
        obtain ⟨hlt, hm⟩ := (hleg k).mp ⟨v, hD⟩
        exact hm (hcov k hlt)
    have := hnone hall
    unfold np_random_choice_ok
    rw [this]
    norm_num

theorem claim_C1_witness :
    ((∀ x : ℚ, (0 : ℚ) < (fun _ => (1 : ℚ)) x) ∧ ((1 : ℚ) ≠ 0)) ∧
    nanargmax (applyMask [(3 : ℚ), 1] ({1} : Finset ℕ)) = some 0 ∧
    (0 < [(3 : ℚ), 1].length ∧ 0 ∉ ({1} : Finset ℕ)) := by
  refine ⟨⟨fun x => one_pos, one_ne_zero⟩, by decide, ?_⟩
  exact (claim_C1_selection_policy_one_legal_index [3, 1] [0] {1} ∅
    (fun _ => 1) false 1 (fun x => one_pos) one_ne_zero).2.1 0 (by decide)

/-- C3: whenever at least one entry of the sampled-value row is legal, the
Max policy (`np.nanargmax` over the NaN-masked row) returns the index of the
greatest value among the legal entries and the Min policy returns the index
of the least; disallowed indices are excluded from consideration entirely
(they are `none` in the masked row, so their values never take part in any
comparison — absent, not zero). -/
theorem claim_C3_extremum_pick_over_legal_entries (xs : List ℚ)
    (mask : Finset ℕ) (h : ∃ k, k < xs.length ∧ k ∉ mask) :
    (∃ i vi, nanargmax (applyMask xs mask) = some i ∧ i < xs.length ∧
      i ∉ mask ∧ xs[i]? = some vi ∧
      ∀ j vj, j ∉ mask → xs[j]? = some vj → vj ≤ vi) ∧
    (∃ i vi, nanargmin (applyMask xs mask) = some i ∧ i < xs.length ∧
      i ∉ mask ∧ xs[i]? = some vi ∧
      ∀ j vj, j ∉ mask → xs[j]? = some vj → vi ≤ vj) := by
  have hnotnone : ¬ ∀ k, k < xs.length → k ∈ mask := by
    rcases h with ⟨k, hk, hkm⟩
    intro hc
    exact hkm (hc k hk)
  constructor
  · rcases hres : nanargmax (applyMask xs mask) with - | i
    · rw [nanargmax_applyMask_none_iff] at hres
      exact absurd hres hnotnone
    · rcases nanargmax_spec hres with ⟨rv, hlt, hD, hdom⟩
      obtain ⟨hlen, hm⟩ := nanargmax_applyMask_legal xs mask i hres
      have hxi : xs[i]? = some rv := by
        rw [applyMask_getD, if_neg hm] at hD
        exact hD
      refine ⟨i, rv, rfl, hlen, hm, hxi, ?_⟩
      intro j vj hjm hj
      exact hdom j vj (by rw [applyMask_getD, if_neg hjm, hj])
  · rcases hres : nanargmin (applyMask xs mask) with - | i
    · rw [nanargmin_applyMask_none_iff] at hres
      exact absurd hres hnotnone
    · rcases nanargmin_spec hres with ⟨rv, hlt, hD, hdom⟩
      obtain ⟨hlen, hm⟩ := nanargmin_applyMask_legal xs mask i hres
      have hxi : xs[i]? = some rv := by
        rw [applyMask_getD, if_neg hm] at hD
        exact hD
      refine ⟨i, rv, rfl, hlen, hm, hxi, ?_⟩
      intro j vj hjm hj
      exact hdom j vj (by rw [applyMask_getD, if_neg hjm, hj])

theorem claim_C3_witness :
    (∃ k, k < [(3 : ℚ), 1, 5].length ∧ k ∉ ({2} : Finset ℕ)) ∧
    nanargmax (applyMask [(3 : ℚ), 1, 5] ({2} : Finset ℕ)) = some 0 ∧
    nanargmin (applyMask [(3 : ℚ), 1, 5] ({2} : Finset ℕ)) = some 1 ∧
    (∃ i vi, nanargmax (applyMask [(3 : ℚ), 1, 5] ({2} : Finset ℕ)) = some i ∧
      i < [(3 : ℚ), 1, 5].length ∧ i ∉ ({2} : Finset ℕ) ∧
      [(3 : ℚ), 1, 5][i]? = some vi ∧
      ∀ j vj, j ∉ ({2} : Finset ℕ) → [(3 : ℚ), 1, 5][j]? = some vj → vj ≤ vi) := by
  refine ⟨⟨0, by decide, by decide⟩, by decide, by decide, ?_⟩
  exact (claim_C3_extremum_pick_over_legal_entries [3, 1, 5] {2}
    ⟨0, by decide, by decide⟩).1

theorem getD_of_le_length {l : List α} {n : ℕ} (h : l.length ≤ n) (d : α) :
    l.getD n d = d := by
  induction l generalizing n with
  | nil => simp
  | cons x xs ih =>
    cases n with
    | zero => simp at h
    | succ m =>
      simp only [List.getD_cons_succ]
      exact ih (by simpa using h)

/-- Where `evaluate`'s belief feedback lands: the reagent at `(i, j)` gets the
score appended exactly when slot `i` exists in the choice list and `j` is the
in-range choice of slot `i`; every other reagent is untouched. -/
theorem addScoreAll_reagentAt (v : ℚ) :
    ∀ (rls : List (List Reagent)) (cl : List ℕ) (i j : ℕ),
      reagentAt (addScoreAll v rls cl) i j =
        if i < cl.length ∧ i < rls.length ∧ j = cl.getD i 0 ∧
            j < (rls.getD i []).length
        then Reagent.add_score (reagentAt rls i j) v
        else reagentAt rls i j := by
  intro rls
  induction rls with
  | nil =>
    intro cl i j
    cases cl <;> simp [addScoreAll, reagentAt]
  | cons row rest ih =>
    intro cl i j
    cases cl with
    | nil => simp [addScoreAll]
    | cons c cs =>
      cases i with
      | zero =>
        simp only [addScoreAll, reagentAt, List.getD_cons_zero,
          List.length_cons, List.getD_cons_succ]
        by_cases hjc : j = c
        · subst hjc
          by_cases hjr : j < row.length
          · rw [getD_modifyAt_self _ _ _ _ hjr]
            rw [if_pos ⟨by omega, by omega, rfl, hjr⟩]
          · rw [getD_of_le_length (by simpa [Nat.not_lt] using hjr) dfltReagent]
            rw [if_neg (by intro hcon; exact hjr hcon.2.2.2)]
            rw [getD_of_le_length (by simpa [Nat.not_lt] using hjr) dfltReagent]
        · rw [getD_modifyAt_other _ _ _ _ _ (by omega)]
          rw [if_neg (by intro hcon; exact hjc hcon.2.2.1)]
      | succ m =>
        simp only [addScoreAll, reagentAt, List.getD_cons_succ, List.length_cons]
        have := ih cs m j
        simp only [reagentAt] at this
        rw [this]
        by_cases hcond : m < cs.length ∧ m < rest.length ∧ j = cs.getD m 0 ∧
            j < (rest.getD m []).length
        · rw [if_pos hcond,
            if_pos ⟨by omega, by omega, hcond.2.2.1, hcond.2.2.2⟩]
        · rw [if_neg hcond,
            if_neg (fun hcon => hcond ⟨by omega, by omega, hcon.2.2.1, hcon.2.2.2⟩)]

/-- `evaluate` on a successful assembly and finite score: the score is fed
back into every selected reagent and returned. -/
theorem evaluate_success (env : Env τ) (st : TSState τ) (cl : List ℕ)
    (sm : String) (v : ℚ) (hA : env.run_reactants cl = some sm)
    (hS : env.evaluator cl = some v) :
    evaluate env st cl =
      ({ st with reagent_lists := addScoreAll v st.reagent_lists cl }, sm,
        productNameOf st.reagent_lists cl, some v) := by
  unfold evaluate
  rw [hA, hS]

/-- `evaluate` when the reaction yields no product: state untouched, smiles
"FAIL", NaN score. -/
theorem evaluate_fail_assemble (env : Env τ) (st : TSState τ) (cl : List ℕ)
    (hf : env.run_reactants cl = none) :
    evaluate env st cl = (st, "FAIL", productNameOf st.reagent_lists cl, none) := by
  unfold evaluate
  rw [hf]

/-- `evaluate` when the evaluator returns a non-finite score: state
untouched, NaN score. -/
theorem evaluate_fail_score (env : Env τ) (st : TSState τ) (cl : List ℕ)
    (sm : String) (hA : env.run_reactants cl = some sm)
    (hS : env.evaluator cl = none) :
    evaluate env st cl = (st, sm, productNameOf st.reagent_lists cl, none) := by
  unfold evaluate
  rw [hA, hS]

/-- C2: a cycle whose assembler step produces no product or whose evaluator
returns a non-finite score still commits the full combination to the tracker
(`DisallowTracker.update` is called with it — it is never retried), modifies
no reagent's belief state, and contributes no record to the returned list;
stated for a search cycle and for a non-skipped warm-up attempt. -/
theorem claim_C2_failed_cycle_commits_and_changes_nothing (env : Env τ)
    (pick : List (Option ℚ) → Except String ℕ) (tf : TopFunc)
    (st : TSState τ) (out results : List SRec) (c i j : ℕ) :
    (∀ sel t1, searchSlotLoop env pick st.reagent_lists st.tracker (env.sample c)
        (List.replicate st.reagent_lists.length Cell.Empty, st.rng) = .ok (sel, t1) →
      (env.run_reactants (cellIdxList sel) = none ∨
        env.evaluator (cellIdxList sel) = none) →
      ∀ st1 out1, searchCycle env pick tf st c out = .ok (st1, out1) →
        st1.tracker = env.update st.tracker sel ∧
        st1.reagent_lists = st.reagent_lists ∧ out1 = out) ∧
    (j ∉ env.get_disallowed_selection_mask st.tracker
        (warmup_base st.reagent_lists.length i) →
      ∀ cur t1, warmupPartnerLoop env st.tracker (st.reagent_lists.map List.length)
          (partner_list st.reagent_lists.length i)
          ((warmup_base st.reagent_lists.length i).set i (Cell.Fill j), st.rng)
          = .ok (cur, t1) →
        (env.run_reactants (cellIdxList cur) = none ∨
          env.evaluator (cellIdxList cur) = none) →
        ∀ st1 res1, warmupAttempt env st results i j = .ok (st1, res1) →
          st1.tracker = env.update st.tracker cur ∧
          st1.reagent_lists = st.reagent_lists ∧ res1 = results) := by
  constructor
  · intro sel t1 hloop hfail st1 out1 hcyc
    unfold searchCycle at hcyc
    rw [hloop] at hcyc
    dsimp only at hcyc
    have hred : ∀ sm2 : String,
        evaluate env { st with tracker := env.update st.tracker sel, rng := t1 }
          (cellIdxList sel)
          = ({ st with tracker := env.update st.tracker sel, rng := t1 }, sm2,
            productNameOf st.reagent_lists (cellIdxList sel), none) →
        st1.tracker = env.update st.tracker sel ∧
        st1.reagent_lists = st.reagent_lists ∧ out1 = out := by
      intro sm2 hE
      rw [hE] at hcyc
      by_cases hc : c % 100 = 0
      · rw [if_pos hc] at hcyc
        cases htop : top_func tf out with
        | none => rw [htop] at hcyc; exact Except.noConfusion hcyc
        | some best =>
          rw [htop] at hcyc
          simp only [Except.ok.injEq, Prod.mk.injEq] at hcyc
          obtain ⟨hst, hout⟩ := hcyc
          rw [← hst]
          exact ⟨rfl, rfl, hout.symm⟩
      · rw [if_neg hc] at hcyc
        simp only [Except.ok.injEq, Prod.mk.injEq] at hcyc
        obtain ⟨hst, hout⟩ := hcyc
        rw [← hst]
        exact ⟨rfl, rfl, hout.symm⟩
    rcases hfail with hf | hf
    · exact hred "FAIL" (evaluate_fail_assemble env _ _ hf)
    · cases hr : env.run_reactants (cellIdxList sel) with
      | none => exact hred "FAIL" (evaluate_fail_assemble env _ _ hr)
      | some sm => exact hred sm (evaluate_fail_score env _ _ sm hr hf)
  · intro hj cur t1 hploop hfail st1 res1 hatt
    unfold warmupAttempt at hatt
    rw [if_neg hj] at hatt
    rw [hploop] at hatt
    dsimp only at hatt
    have hred : ∀ sm2 : String,
        evaluate env { st with tracker := env.update st.tracker cur, rng := t1 }
          (cellIdxList cur)
          = ({ st with tracker := env.update st.tracker cur, rng := t1 }, sm2,
            productNameOf st.reagent_lists (cellIdxList cur), none) →
        st1.tracker = env.update st.tracker cur ∧
        st1.reagent_lists = st.reagent_lists ∧ res1 = results := by
      intro sm2 hE
      rw [hE] at hatt
      simp only [Except.ok.injEq, Prod.mk.injEq] at hatt
      obtain ⟨hst, hres⟩ := hatt
      rw [← hst]
      exact ⟨rfl, rfl, hres.symm⟩
    rcases hfail with hf | hf
    · exact hred "FAIL" (evaluate_fail_assemble env _ _ hf)
    · cases hr : env.run_reactants (cellIdxList cur) with
      | none => exact hred "FAIL" (evaluate_fail_assemble env _ _ hr)
      | some sm => exact hred sm (evaluate_fail_score env _ _ sm hr hf)

/-- If the per-100-cycles report step returns ok, the returned output list is
the one that entered the report. -/
theorem report_ok_out (tf : TopFunc) (c : ℕ) (stX st1 : TSState τ)
    (outX out1 : List SRec)
    (h : (if c % 100 = 0 then
        match top_func tf outX with
        | none => (Except.error (top_func_msg tf) : Except String (TSState τ × List SRec))
        | some _ => Except.ok (stX, outX)
      else Except.ok (stX, outX)) = Except.ok (st1, out1)) :
    out1 = outX := by
  by_cases hc : c % 100 = 0
  · rw [if_pos hc] at h
    cases htop : top_func tf outX with
    | none => rw [htop] at h; exact Except.noConfusion h
    | some best =>
      rw [htop] at h
      simp only [Except.ok.injEq, Prod.mk.injEq] at h
      exact h.2.symm
  · rw [if_neg hc] at h
    simp only [Except.ok.injEq, Prod.mk.injEq] at h
    exact h.2.symm

/-- C6: for every evaluated combination, the score is appended to the
accumulated scores of every participating element iff it is finite (the
in-range selected reagent of each slot gets exactly the appended score, all
other reagents are untouched, and nothing changes on a non-finite outcome);
and a search cycle appends a `(score, product smiles, product name)` record
to the output list iff the score is finite. -/
theorem claim_C6_feedback_and_output_iff_finite (env : Env τ)
    (pick : List (Option ℚ) → Except String ℕ) (tf : TopFunc)
    (st : TSState τ) (cl : List ℕ) (out : List SRec) (c : ℕ) :
    (∀ sm v, env.run_reactants cl = some sm → env.evaluator cl = some v →
      (evaluate env st cl).2.2.2 = some v ∧
      (∀ i, i < cl.length → i < st.reagent_lists.length →
        cl.getD i 0 < (st.reagent_lists.getD i []).length →
        (reagentAt (evaluate env st cl).1.reagent_lists i (cl.getD i 0)).scores
          = (reagentAt st.reagent_lists i (cl.getD i 0)).scores ++ [v]) ∧
      (∀ i j, cl.length ≤ i ∨ j ≠ cl.getD i 0 →
        reagentAt (evaluate env st cl).1.reagent_lists i j
          = reagentAt st.reagent_lists i j)) ∧
    ((env.run_reactants cl = none ∨ env.evaluator cl = none) →
      (evaluate env st cl).1 = st ∧ (evaluate env st cl).2.2.2 = none) ∧
    (∀ sel t1, searchSlotLoop env pick st.reagent_lists st.tracker (env.sample c)
        (List.replicate st.reagent_lists.length Cell.Empty, st.rng) = .ok (sel, t1) →
      ∀ st1 out1, searchCycle env pick tf st c out = .ok (st1, out1) →
        ((∃ sm v, env.run_reactants (cellIdxList sel) = some sm ∧
            env.evaluator (cellIdxList sel) = some v ∧
            out1 = out ++ [(v, sm, productNameOf st.reagent_lists (cellIdxList sel))]) ∨
         ((env.run_reactants (cellIdxList sel) = none ∨
            env.evaluator (cellIdxList sel) = none) ∧ out1 = out))) := by
  refine ⟨?_, ?_, ?_⟩
  · intro sm v hA hS
    rw [evaluate_success env st cl sm v hA hS]
    refine ⟨rfl, ?_, ?_⟩
    · intro i hi hir hrow
      show (reagentAt (addScoreAll v st.reagent_lists cl) i (cl.getD i 0)).scores = _
      rw [addScoreAll_reagentAt v st.reagent_lists cl i (cl.getD i 0)]
      rw [if_pos ⟨hi, hir, rfl, hrow⟩]
      rfl
    · intro i j hout
      show reagentAt (addScoreAll v st.reagent_lists cl) i j = _
      rw [addScoreAll_reagentAt v st.reagent_lists cl i j]
      rcases hout with hout | hout
      · rw [if_neg (fun hcon => absurd hcon.1 (by omega))]
      · rw [if_neg (fun hcon => hout hcon.2.2.1)]
  · intro hfail
    rcases hfail with hf | hf
    · rw [evaluate_fail_assemble env st cl hf]
      exact ⟨rfl, rfl⟩
    · cases hr : env.run_reactants cl with
      | none =>
        rw [evaluate_fail_assemble env st cl hr]
        exact ⟨rfl, rfl⟩
      | some sm =>
        rw [evaluate_fail_score env st cl sm hr hf]
        exact ⟨rfl, rfl⟩
  · intro sel t1 hloop st1 out1 hcyc
    unfold searchCycle at hcyc
    rw [hloop] at hcyc
    dsimp only at hcyc
    cases hr : env.run_reactants (cellIdxList sel) with
    | none =>
      rw [evaluate_fail_assemble env _ _ hr] at hcyc
      dsimp only at hcyc
      exact Or.inr ⟨Or.inl rfl, report_ok_out tf c _ st1 _ out1 hcyc⟩
    | some sm =>
      cases hs : env.evaluator (cellIdxList sel) with
      | none =>
        rw [evaluate_fail_score env _ _ sm hr hs] at hcyc
        dsimp only at hcyc
        exact Or.inr ⟨Or.inr rfl, report_ok_out tf c _ st1 _ out1 hcyc⟩
      | some v =>
        rw [evaluate_success env _ _ sm v hr hs] at hcyc
        dsimp only at hcyc
        exact Or.inl ⟨sm, v, rfl, rfl, report_ok_out tf c _ st1 _ out1 hcyc⟩

/-- A successful `searchFillSlot` writes `Cell.Fill` of the picked index into
the visited slot and advances the draw counter. -/
theorem searchFillSlot_ok (env : Env τ) (pick : List (Option ℚ) → Except String ℕ)
    (rls : List (List Reagent)) (tracker : τ) (sel : List Cell) (t cid : ℕ)
    (sel1 : List Cell) (t1 : ℕ)
    (h : searchFillSlot env pick rls tracker sel t cid = .ok (sel1, t1)) :
    ∃ ch, sel1 = (sel.set cid Cell.To_Fill).set cid (Cell.Fill ch) ∧ t1 = t + 1 := by
  unfold searchFillSlot at h
  dsimp only at h
  split at h
  · exact Except.noConfusion h
  · rename_i choice heq
    simp only [Except.ok.injEq, Prod.mk.injEq] at h
    exact ⟨choice, h.1.symm, h.2.symm⟩

/-- Invariant of the per-cycle slot loop: it leaves unvisited slots alone and
leaves every visited (in-range) slot concretely filled. -/
theorem searchSlotLoop_fills (env : Env τ) (pick : List (Option ℚ) → Except String ℕ)
    (rls : List (List Reagent)) (tracker : τ) :
    ∀ (order : List ℕ) (sel : List Cell) (t : ℕ) (sel1 : List Cell) (t1 : ℕ),
      searchSlotLoop env pick rls tracker order (sel, t) = .ok (sel1, t1) →
      sel1.length = sel.length ∧
      (∀ p, p ∉ order → sel1.getD p Cell.Empty = sel.getD p Cell.Empty) ∧
      (∀ p, p ∈ order → p < sel.length → ∃ jp, sel1.getD p Cell.Empty = Cell.Fill jp) := by
  intro order
  induction order with
  | nil =>
    intro sel t sel1 t1 h
    simp only [searchSlotLoop, Except.ok.injEq, Prod.mk.injEq] at h
    obtain ⟨hsel, -⟩ := h
    subst hsel
    exact ⟨rfl, fun p _ => rfl, fun p hp => absurd hp (List.not_mem_nil p)⟩
  | cons cid rest ih =>
    intro sel t sel1 t1 h
    unfold searchSlotLoop at h
    split at h
    · exact Except.noConfusion h
    · rename_i acc1 heq
      obtain ⟨selm, tm⟩ := acc1
      obtain ⟨ch, hselm, htm⟩ := searchFillSlot_ok env pick rls tracker sel t cid selm tm heq
      obtain ⟨hlen, hkeep, hfill⟩ := ih selm tm sel1 t1 h
      have hlenm : selm.length = sel.length := by
        rw [hselm]
        simp
      refine ⟨by rw [hlen, hlenm], ?_, ?_⟩
      · intro p hp
        have hpc : p ≠ cid := fun hc => hp (hc ▸ List.mem_cons_self cid rest)
        have hpr : p ∉ rest := fun hc => hp (List.mem_cons_of_mem cid hc)
        rw [hkeep p hpr, hselm,
          getD_set_other _ _ _ _ _ (fun hc => hpc hc.symm),
          getD_set_other _ _ _ _ _ (fun hc => hpc hc.symm)]
      · intro p hp hplen
        by_cases hpr : p ∈ rest
        · exact hfill p hpr (by rw [hlenm]; exact hplen)
        · have hpc : p = cid := by
            rcases List.mem_cons.mp hp with h1 | h1
            · exact h1
            · exact absurd h1 hpr
          subst hpc
          refine ⟨ch, ?_⟩
          rw [hkeep p hpr, hselm,
            getD_set_self _ _ _ _ (by simpa using hplen)]

/-- C7: each search cycle visits the slots in the order drawn by
`random.sample(range(n), n)` — a fresh permutation of all slot indices per
cycle — so every slot index occurs exactly once in the visiting order and,
when the slot loop succeeds, every slot ends up concretely filled exactly
once. -/
theorem claim_C7_fresh_permutation_per_cycle (env : Env τ)
    (pick : List (Option ℚ) → Except String ℕ) (rls : List (List Reagent))
    (tracker : τ) (c t0 : ℕ)
    (hperm : (env.sample c).Perm (List.range rls.length)) :
    (env.sample c).length = rls.length ∧
    (∀ s, s < rls.length → (env.sample c).count s = 1) ∧
    (∀ sel1 t1, searchSlotLoop env pick rls tracker (env.sample c)
        (List.replicate rls.length Cell.Empty, t0) = .ok (sel1, t1) →
      ∀ p, p < rls.length → ∃ jp, sel1.getD p Cell.Empty = Cell.Fill jp) := by
  refine ⟨?_, ?_, ?_⟩
  · rw [hperm.length_eq]
    exact List.length_range rls.length
  · intro s hs
    rw [hperm.count_eq]
    exact List.count_eq_one_of_mem (List.nodup_range _) (List.mem_range.mpr hs)
  · intro sel1 t1 h p hp
    obtain ⟨-, -, hfill⟩ :=
      searchSlotLoop_fills env pick rls tracker (env.sample c) _ t0 sel1 t1 h
    refine hfill p ?_ (by simpa using hp)
    exact hperm.mem_iff.mpr (List.mem_range.mpr hp)

/-- Two-slot engine fixtures for the permutation witness. -/
def envPerm2 : Env Unit := { envNoFinite with sample := fun _ => [1, 0] }

def stTwo : TSState Unit :=
  { reagent_lists := [[dfltReagent], [dfltReagent]], tracker := (), rng := 0 }

theorem claim_C7_witness :
    (envPerm2.sample 0).Perm (List.range stTwo.reagent_lists.length) ∧
    (envPerm2.sample 0).count 0 = 1 ∧
    searchSlotLoop envPerm2 nanargmax_pick stTwo.reagent_lists stTwo.tracker
        (envPerm2.sample 0)
        (List.replicate stTwo.reagent_lists.length Cell.Empty, stTwo.rng)
      = .ok ([Cell.Fill 0, Cell.Fill 0], 2) ∧
    (∃ jp, [Cell.Fill 0, Cell.Fill 0].getD 1 Cell.Empty = Cell.Fill jp) := by
  have hperm : (envPerm2.sample 0).Perm (List.range stTwo.reagent_lists.length) := by
    decide
  refine ⟨hperm, ?_, rfl, ?_⟩
  · exact (claim_C7_fresh_permutation_per_cycle envPerm2 nanargmax_pick
      stTwo.reagent_lists stTwo.tracker 0 stTwo.rng hperm).2.1 0 (by decide)
  · exact (claim_C7_fresh_permutation_per_cycle envPerm2 nanargmax_pick
      stTwo.reagent_lists stTwo.tracker 0 stTwo.rng hperm).2.2
      [Cell.Fill 0, Cell.Fill 0] 2 rfl 1 (by decide)

/-- A successful partner fill writes `Cell.Fill` of the drawn index into the
partner slot and advances the draw counter. -/
theorem warmupPartnerFill_ok (env : Env τ) (tracker : τ) (counts : List ℕ)
    (cur : List Cell) (t p : ℕ) (cur1 : List Cell) (t1 : ℕ)
    (h : warmupPartnerFill env tracker counts cur t p = .ok (cur1, t1)) :
    ∃ sel, cur1 = (cur.set p Cell.To_Fill).set p (Cell.Fill sel) ∧ t1 = t + 1 := by
  unfold warmupPartnerFill at h
  dsimp only at h
  split at h
  · exact Except.noConfusion h
  · rename_i sel heq
    simp only [Except.ok.injEq, Prod.mk.injEq] at h
    exact ⟨sel, h.1.symm, h.2.symm⟩

/-- Invariant of the warm-up partner loop: slots outside the partner list are
untouched and every visited (in-range) partner slot ends up filled. -/
theorem warmupPartnerLoop_fills (env : Env τ) (tracker : τ) (counts : List ℕ) :
    ∀ (ps : List ℕ) (cur : List Cell) (t : ℕ) (cur1 : List Cell) (t1 : ℕ),
      warmupPartnerLoop env tracker counts ps (cur, t) = .ok (cur1, t1) →
      cur1.length = cur.length ∧
      (∀ q, q ∉ ps → cur1.getD q Cell.Empty = cur.getD q Cell.Empty) ∧
      (∀ q, q ∈ ps → q < cur.length → ∃ jq, cur1.getD q Cell.Empty = Cell.Fill jq) := by
  intro ps
  induction ps with
  | nil =>
    intro cur t cur1 t1 h
    simp only [warmupPartnerLoop, Except.ok.injEq, Prod.mk.injEq] at h
    obtain ⟨hc, -⟩ := h
    subst hc
    exact ⟨rfl, fun q _ => rfl, fun q hq => absurd hq (List.not_mem_nil q)⟩
  | cons p rest ih =>
    intro cur t cur1 t1 h
    unfold warmupPartnerLoop at h
    split at h
    · exact Except.noConfusion h
    · rename_i acc1 heq
      obtain ⟨curm, tm⟩ := acc1
      obtain ⟨sel, hcurm, htm⟩ :=
        warmupPartnerFill_ok env tracker counts cur t p curm tm heq
      obtain ⟨hlen, hkeep, hfill⟩ := ih curm tm cur1 t1 h
      have hlenm : curm.length = cur.length := by
        rw [hcurm]
        simp
      refine ⟨by rw [hlen, hlenm], ?_, ?_⟩
      · intro q hq
        have hqp : q ≠ p := fun hc => hq (hc ▸ List.mem_cons_self p rest)
        have hqr : q ∉ rest := fun hc => hq (List.mem_cons_of_mem p hc)
        rw [hkeep q hqr, hcurm,
          getD_set_other _ _ _ _ _ (fun hc => hqp hc.symm),
          getD_set_other _ _ _ _ _ (fun hc => hqp hc.symm)]
      · intro q hq hqlen
        by_cases hqr : q ∈ rest
        · exact hfill q hqr (by rw [hlenm]; exact hqlen)
        · have hqp : q = p := by
            rcases List.mem_cons.mp hq with h1 | h1
            · exact h1
            · exact absurd h1 hqr
          subst hqp
          refine ⟨sel, ?_⟩
          rw [hkeep q hqr, hcurm,
            getD_set_self _ _ _ _ (by simpa using hqlen)]

theorem not_mem_partner_list (n i : ℕ) : i ∉ partner_list n i := by
  simp [partner_list]

theorem mem_partner_list {n i p : ℕ} (hp : p < n) (hpi : p ≠ i) :
    p ∈ partner_list n i := by
  simp [partner_list, List.mem_filter, List.mem_range, hp, hpi]

/-- C4: the warm-up inner loop for a slot `i` and candidate `j` performs
exactly `trialsPerElement` sequential attempts (the defining recursion of
`warmupTrials`); an attempt where `j` is currently disallowed is a complete
no-op (state and results unchanged — skipped, no trial performed); an attempt
where `j` is legal commits `j` to slot `i`, draws a partner for every other
slot (the finished vector is concrete everywhere), and commits the full
vector to the tracker. -/
theorem claim_C4_warmup_trials_per_element (env : Env τ) (st : TSState τ)
    (results : List SRec) (i j T : ℕ) :
    (warmupTrials env i j 0 (st, results) = .ok (st, results)) ∧
    (warmupTrials env i j (T + 1) (st, results) =
      match warmupAttempt env st results i j with
      | .error e => .error e
      | .ok acc1 => warmupTrials env i j T acc1) ∧
    (j ∈ env.get_disallowed_selection_mask st.tracker
        (warmup_base st.reagent_lists.length i) →
      warmupAttempt env st results i j = .ok (st, results)) ∧
    (j ∉ env.get_disallowed_selection_mask st.tracker
        (warmup_base st.reagent_lists.length i) →
      i < st.reagent_lists.length →
      ∀ cur t1, warmupPartnerLoop env st.tracker (st.reagent_lists.map List.length)
          (partner_list st.reagent_lists.length i)
          ((warmup_base st.reagent_lists.length i).set i (Cell.Fill j), st.rng)
          = .ok (cur, t1) →
        cur.getD i Cell.Empty = Cell.Fill j ∧
        (∀ p, p < st.reagent_lists.length → ∃ jp, cur.getD p Cell.Empty = Cell.Fill jp) ∧
        (∃ st1 res1, warmupAttempt env st results i j = .ok (st1, res1) ∧
          st1.tracker = env.update st.tracker cur)) := by
  refine ⟨rfl, rfl, ?_, ?_⟩
  · intro hj
    unfold warmupAttempt
    dsimp only
    rw [if_pos hj]
  · intro hj hi cur t1 hploop
    obtain ⟨hlen, hkeep, hfill⟩ :=
      warmupPartnerLoop_fills env st.tracker (st.reagent_lists.map List.length)
        (partner_list st.reagent_lists.length i)
        ((warmup_base st.reagent_lists.length i).set i (Cell.Fill j)) st.rng
        cur t1 hploop
    have hbaselen : (warmup_base st.reagent_lists.length i).length
        = st.reagent_lists.length := by
      simp [warmup_base]
    have hstart : ((warmup_base st.reagent_lists.length i).set i
        (Cell.Fill j)).getD i Cell.Empty = Cell.Fill j :=
      getD_set_self _ _ _ _ (by rw [hbaselen]; exact hi)
    have hstartlen : ((warmup_base st.reagent_lists.length i).set i
        (Cell.Fill j)).length = st.reagent_lists.length := by
      rw [List.length_set, hbaselen]
    have hgi : cur.getD i Cell.Empty = Cell.Fill j := by
      rw [hkeep i (not_mem_partner_list _ _), hstart]
    refine ⟨hgi, ?_, ?_⟩
    · intro p hp
      by_cases hpi : p = i
      · subst hpi
        exact ⟨j, hgi⟩
      · exact hfill p (mem_partner_list hp hpi) (by rw [hstartlen]; exact hp)
    · unfold warmupAttempt
      dsimp only
      rw [if_neg hj, hploop]
      dsimp only
      cases hr : env.run_reactants (cellIdxList cur) with
      | none =>
        rw [evaluate_fail_assemble env _ _ hr]
        exact ⟨_, results, rfl, rfl⟩
      | some sm =>
        cases hs : env.evaluator (cellIdxList cur) with
        | none =>
          rw [evaluate_fail_score env _ _ sm hr hs]
          exact ⟨_, results, rfl, rfl⟩
        | some v =>
          rw [evaluate_success env _ _ sm v hr hs]
          exact ⟨_, _, rfl, rfl⟩

theorem claim_C8_witness :
    (∃ cfg, init_mode "maximize" = .ok cfg) ∧
    ¬ (∃ cfg, init_mode "not_a_mode" = .ok cfg) := by
  constructor
  · exact (claim_C8_mode_configuration "maximize").mpr (Or.inl rfl)
  · intro hex
    rcases (claim_C8_mode_configuration "not_a_mode").mp hex with h | h | h | h <;>
      exact absurd h (by decide)

theorem claim_C2_witness :
    searchSlotLoop envAssembleFail nanargmax_pick stOne.reagent_lists stOne.tracker
        (envAssembleFail.sample 1)
        (List.replicate stOne.reagent_lists.length Cell.Empty, stOne.rng)
      = .ok ([Cell.Fill 0], 1) ∧
    envAssembleFail.run_reactants (cellIdxList [Cell.Fill 0]) = none ∧
    searchCycle envAssembleFail nanargmax_pick TopFunc.py_max stOne 1 []
      = .ok ({ stOne with rng := 1 }, []) ∧
    (({ stOne with rng := 1 } : TSState Unit).tracker
        = envAssembleFail.update stOne.tracker [Cell.Fill 0] ∧
      ({ stOne with rng := 1 } : TSState Unit).reagent_lists = stOne.reagent_lists ∧
      ([] : List SRec) = []) := by
  refine ⟨rfl, rfl, rfl, ?_⟩
  exact (claim_C2_failed_cycle_commits_and_changes_nothing envAssembleFail
    nanargmax_pick TopFunc.py_max stOne [] [] 1 0 0).1 [Cell.Fill 0] 1 rfl
    (Or.inl rfl) { stOne with rng := 1 } [] rfl

theorem claim_C4_witness :
    (0 ∉ envScore7.get_disallowed_selection_mask stOne.tracker
      (warmup_base stOne.reagent_lists.length 0)) ∧
    warmupPartnerLoop envScore7 stOne.tracker (stOne.reagent_lists.map List.length)
        (partner_list stOne.reagent_lists.length 0)
        ((warmup_base stOne.reagent_lists.length 0).set 0 (Cell.Fill 0), stOne.rng)
      = .ok ([Cell.Fill 0], 0) ∧
    [Cell.Fill 0].getD 0 Cell.Empty = Cell.Fill 0 ∧
    (∃ st1 res1, warmupAttempt envScore7 stOne [] 0 0 = .ok (st1, res1) ∧
      st1.tracker = envScore7.update stOne.tracker [Cell.Fill 0]) := by
  have h := (claim_C4_warmup_trials_per_element envScore7 stOne [] 0 0 0).2.2.2
    (by decide) (by decide) [Cell.Fill 0] 0 rfl
  exact ⟨by decide, rfl, h.1, h.2.2⟩

theorem claim_C6_witness :
    searchSlotLoop envScore7 nanargmax_pick stOne.reagent_lists stOne.tracker
        (envScore7.sample 1)
        (List.replicate stOne.reagent_lists.length Cell.Empty, stOne.rng)
      = .ok ([Cell.Fill 0], 1) ∧
    searchCycle envScore7 nanargmax_pick TopFunc.py_max stOne 1 []
      = .ok ({ stOne with
          reagent_lists := [[{ dfltReagent with scores := [7] }]], rng := 1 },
        [(7, "S", "")]) ∧
    ((∃ sm v, envScore7.run_reactants (cellIdxList [Cell.Fill 0]) = some sm ∧
        envScore7.evaluator (cellIdxList [Cell.Fill 0]) = some v ∧
        [((7 : ℚ), "S", "")]
          = [] ++ [(v, sm, productNameOf stOne.reagent_lists (cellIdxList [Cell.Fill 0]))]) ∨
     ((envScore7.run_reactants (cellIdxList [Cell.Fill 0]) = none ∨
        envScore7.evaluator (cellIdxList [Cell.Fill 0]) = none) ∧
       [((7 : ℚ), "S", "")] = [])) := by
  refine ⟨rfl, rfl, ?_⟩
  exact (claim_C6_feedback_and_output_iff_finite envScore7 nanargmax_pick
    TopFunc.py_max stOne (cellIdxList [Cell.Fill 0]) [] 1).2.2 [Cell.Fill 0] 1 rfl
    { stOne with reagent_lists := [[{ dfltReagent with scores := [7] }]], rng := 1 }
    [(7, "S", "")] rfl
